import Mathlib

/-!
Shallow embedding of the BrainRust compiler/interpreter (src/main.rs).

The program is a Brainfuck translator with two backends:
* a compile path: lexer → folding parser → Jasmin-text code generator
  driven by a label stack (`label_push` / pop);
* an interpreter that re-scans the raw character stream with a re-entry
  position stack and a skip mode for loops whose guard cell is zero.

Rust's partial operations (`Vec::pop().unwrap()`, out-of-bounds indexing,
`chars().nth(0).unwrap()`) are modelled with `Option`: `none` is a panic.
The interpreter's `u8` cell arithmetic is modelled as naturals reduced
mod 256 (fixed-width unsigned wrapping semantics).
-/

namespace BF

/-- The eight operator kinds, as in `enum Token` of the source. -/
inductive Token where
  | Plus
  | Minus
  | Right
  | Left
  | PutChar
  | ReadChar
  | JumpIfZero
  | JumpIfNonZero
deriving DecidableEq, Repr

/-- `struct Inst { typ: Token, argument: usize }`. -/
structure Inst where
  typ : Token
  argument : Nat
deriving DecidableEq, Repr

/-- Default instruction used with `List.getD`; reachable code never relies
on it (indices are guarded), it only makes the accessors total. -/
def dInst : Inst := ⟨Token.Plus, 0⟩

abbrev LabelStack := List Nat

/-- `label_push`: read the top of the label stack (or 0 when empty), push
that value plus one and return it.  The Rust `Vec` pushes at the end and
reads `last()`; the model pushes at the head and reads `headD`. -/
def label_push (stack : LabelStack) : Nat × LabelStack :=
  let last := stack.headD 0
  (last + 1, (last + 1) :: stack)

namespace bytecode

/-- `bytecode::plus`: add an immediate to the current cell. -/
def plus (count : Int) : String :=
  "aload_2\niload_1\ndup2\niaload\nbipush " ++ toString count
    ++ "\niadd\niastore"

/-- `bytecode::mov`: bump the pointer register by an immediate. -/
def mov (count : Int) : String :=
  "iinc 1 " ++ toString count

/-- `bytecode::out`: print the current cell as a character. -/
def out : String :=
  "getstatic java/lang/System/out Ljava/io/PrintStream;\naload_2\niload_1\niaload\ni2c\ninvokevirtual java/io/PrintStream/print(C)V"

/-- `bytecode::input`: read one value into the current cell. -/
def input : String :=
  "aload_2\niload_1\ngetstatic java/lang/System/in Ljava/io/InputStream;\ninvokevirtual java/io/InputStream/read()I\niastore"

/-- `bytecode::loop_start`: allocate a label with `label_push` and emit the
loop head: start label, cell test, conditional branch to the end label. -/
def loop_start (stack : LabelStack) : String × LabelStack :=
  let p := label_push stack
  ("loop" ++ toString p.1 ++ "Start:\naload_2\niload_1\niaload\nifeq loop"
      ++ toString p.1 ++ "End",
    p.2)

/-- `bytecode::loop_end`: pop the label stack (`unwrap` panics on empty,
modelled as `none`) and emit the back branch plus the end label. -/
def loop_end (stack : LabelStack) : Option (String × LabelStack) :=
  match stack with
  | [] => none
  | pos :: rest =>
      some ("goto loop" ++ toString pos ++ "Start\nloop" ++ toString pos
        ++ "End:", rest)

end bytecode

/-- `Inst::to_bytecode`: map one instruction to its text fragment,
threading the label stack.  Only the loop kinds touch the stack; only
`loop_end` can fail. -/
def Inst.to_bytecode (self : Inst) (loop_stack : LabelStack) :
    Option (String × LabelStack) :=
  let arg : Int := self.argument
  match self.typ with
  | Token.Plus => some (bytecode.plus arg, loop_stack)
  | Token.Minus => some (bytecode.plus (-arg), loop_stack)
  | Token.Left => some (bytecode.mov (-arg), loop_stack)
  | Token.Right => some (bytecode.mov arg, loop_stack)
  | Token.PutChar => some (bytecode.out, loop_stack)
  | Token.ReadChar => some (bytecode.input, loop_stack)
  | Token.JumpIfZero => some (bytecode.loop_start loop_stack)
  | Token.JumpIfNonZero => bytecode.loop_end loop_stack

/-- The fixed Jasmin header (`const HEADER` in the source). -/
def HEADER : String :=
  "\n.class public Main\n.super java/lang/Object\n\n.method public <init>()V\n    aload_0\n    invokenonvirtual java/lang/Object/<init>()V\n    return\n.end method\n\n.method public static main([Ljava/lang/String;)V\n    .limit stack 10\n    .limit locals 3\n\n    iconst_0\n    istore_1\n\n    bipush 100\n    newarray int\n    astore_2\n"

/-- The fixed Jasmin trailer (`const TAIL` in the source). -/
def TAIL : String :=
  "\n    return\n.end method\n"

/-- The per-instruction fragment list built by the loop in `produce_code`,
threading the label stack through `Inst::to_bytecode`. -/
def produce_code_frags : List Inst → LabelStack → Option (List String)
  | [], _ => some []
  | inst :: rest, stack =>
    match inst.to_bytecode stack with
    | none => none
    | some (s, stack') =>
        (produce_code_frags rest stack').map (fun l => s :: l)

/-- `produce_code`: header, one fragment per instruction, trailer, joined
with newlines. -/
def produce_code (instructions : List Inst) : Option String :=
  (produce_code_frags instructions []).map
    (fun frags => String.intercalate "\n" ((HEADER :: frags) ++ [TAIL]))

/-- `lex_program`: keep the eight operator characters, in order, dropping
everything else.  (The Rust function wraps the list in `Ok`
unconditionally; the `Result` layer is omitted.) -/
def lex_program (program : String) : List Token :=
  program.data.filterMap fun c =>
    if c = '+' then some Token.Plus
    else if c = '-' then some Token.Minus
    else if c = '>' then some Token.Right
    else if c = '<' then some Token.Left
    else if c = '.' then some Token.PutChar
    else if c = ',' then some Token.ReadChar
    else if c = '[' then some Token.JumpIfZero
    else if c = ']' then some Token.JumpIfNonZero
    else none

/-- `compile_foldable`: the current token plus the length of the maximal
run of identical tokens immediately following it (`rest` is the token list
after the current one). -/
def compile_foldable (token : Token) (rest : List Token) : Inst :=
  ⟨token, (rest.takeWhile (fun u => u == token)).length + 1⟩

theorem length_dropWhile_le (p : α → Bool) (l : List α) :
    (l.dropWhile p).length ≤ l.length :=
  (List.dropWhile_sublist p).length_le

/-- The parse loop of `parse_program`.  Foldable tokens are collapsed with
`compile_foldable` (the cursor then skips the whole run, modelled by
`dropWhile`); a loop-open pushes the index of the about-to-be-appended
instruction and appends a placeholder; a loop-close pops the stack
(`unwrap` panic on empty = `none`), patches the popped open instruction's
argument to the current length and appends the close pointing back. -/
def parse_program_aux : List Token → List Inst → List Nat → Option (List Inst)
  | [], instructions, _ => some instructions
  | curr :: rest, instructions, stack =>
    match curr with
    | Token.JumpIfZero =>
        parse_program_aux rest
          (instructions ++ [⟨Token.JumpIfZero, 0⟩])
          (instructions.length :: stack)
    | Token.JumpIfNonZero =>
        match stack with
        | [] => none
        | open_inst_ptr :: stack' =>
          match instructions[open_inst_ptr]? with
          | none => none
          | some open_inst =>
              parse_program_aux rest
                ((instructions.set open_inst_ptr
                    ⟨open_inst.typ, instructions.length⟩)
                  ++ [⟨Token.JumpIfNonZero, open_inst_ptr⟩])
                stack'
    | t =>
        parse_program_aux (rest.dropWhile (fun u => u == t))
          (instructions ++ [compile_foldable t rest]) stack
termination_by ts _ _ => ts.length
decreasing_by
  all_goals simp only [List.length_cons]
  · exact Nat.lt_succ_self _
  · exact Nat.lt_succ_self _
  · exact Nat.lt_succ_of_le (length_dropWhile_le _ _)

/-- `parse_program`: run the parse loop from the empty instruction list
and empty jump-match stack. -/
def parse_program (program : List Token) : Option (List Inst) :=
  parse_program_aux program [] []

/-- The interpreter's mutable state: the byte tape (values kept < 256),
the cell pointer, the loop re-entry position stack, the skip mode flag and
its nesting counter, the scan index, the output buffer, and the remaining
console input (`some line` = a successful `read_line`, `none` = `Err`;
an exhausted list reads as `Ok` with an empty line, i.e. end of input). -/
structure InterpSt where
  tape : List Nat
  ptr : Nat
  stack : List Nat
  is_looping : Bool
  inner_loops : Nat
  i : Nat
  output : List Char
  input : List (Option String)
deriving DecidableEq, Repr

/-- Result of one iteration of the interpreter's `while` loop. -/
inductive StepR where
  | halt (st : InterpSt)
  | fault
  | next (st : InterpSt)
deriving DecidableEq, Repr

/-- `tape[ptr] += 1` on a `u8` cell: wrapping increment mod 256. -/
def incCell (v : Nat) : Nat := (v + 1) % 256

/-- `tape[ptr] -= 1` on a `u8` cell: wrapping decrement mod 256. -/
def decCell (v : Nat) : Nat := (v + 255) % 256

/-- One iteration of the `while i < program.len()` loop of `interpret`.
In skip mode (`is_looping`) the loop body ends in `continue`, which in the
source skips the `i += 1` at the bottom of the loop: none of the skip-mode
branches advance `i`.  Partial operations (tape indexing out of bounds,
pointer underflow on `<`, `stack.last().unwrap()` on an empty stack,
`chars().nth(0).unwrap()` on an empty line) are `fault`. -/
def step (prog : List Char) (st : InterpSt) : StepR :=
  if st.i < prog.length then
    let c := prog.getD st.i ' '
    if st.is_looping then
      if c = '[' then .next { st with inner_loops := st.inner_loops + 1 }
      else if c = ']' then
        if st.inner_loops = 0 then .next { st with is_looping := false }
        else .next { st with inner_loops := st.inner_loops - 1 }
      else .next st
    else
      if c = '+' then
        if st.ptr < st.tape.length then
          .next { st with
            tape := st.tape.set st.ptr (incCell (st.tape.getD st.ptr 0)),
            i := st.i + 1 }
        else .fault
      else if c = '-' then
        if st.ptr < st.tape.length then
          .next { st with
            tape := st.tape.set st.ptr (decCell (st.tape.getD st.ptr 0)),
            i := st.i + 1 }
        else .fault
      else if c = '>' then .next { st with ptr := st.ptr + 1, i := st.i + 1 }
      else if c = '<' then
        if st.ptr = 0 then .fault
        else .next { st with ptr := st.ptr - 1, i := st.i + 1 }
      else if c = '[' then
        if st.ptr < st.tape.length then
          if st.tape.getD st.ptr 0 = 0 then
            .next { st with is_looping := true, i := st.i + 1 }
          else .next { st with stack := st.i :: st.stack, i := st.i + 1 }
        else .fault
      else if c = ']' then
        if st.ptr < st.tape.length then
          if st.tape.getD st.ptr 0 ≠ 0 then
            match st.stack with
            | [] => .fault
            | p :: _ => .next { st with i := p + 1 }
          else .next { st with stack := st.stack.tail, i := st.i + 1 }
        else .fault
      else if c = '.' then
        if st.ptr < st.tape.length then
          .next { st with
            output := st.output ++ [Char.ofNat (st.tape.getD st.ptr 0)],
            i := st.i + 1 }
        else .fault
      else if c = ',' then
        match st.input.headD (some "") with
        | none => .next { st with input := st.input.tail, i := st.i + 1 }
        | some line =>
          match line.data with
          | [] => .fault
          | ch :: _ =>
            if st.ptr < st.tape.length then
              .next { st with
                tape := st.tape.set st.ptr (ch.toNat % 256),
                input := st.input.tail,
                i := st.i + 1 }
            else .fault
      else .next { st with i := st.i + 1 }
  else .halt st

/-- Outcome of running the interpreter with a step budget: normal
completion with the final state (whose `output` is what `interpret`
prints), a panic, or budget exhausted (the loop is still running). -/
inductive Res where
  | done (st : InterpSt)
  | fault
  | spin
deriving DecidableEq, Repr

/-- Iterate `step` with a fuel budget. -/
def interpRun (prog : List Char) : Nat → InterpSt → Res
  | 0, _ => .spin
  | fuel + 1, st =>
    match step prog st with
    | .halt st' => .done st'
    | .fault => .fault
    | .next st' => interpRun prog fuel st'

/-- The interpreter's initial state: a 100-cell zeroed tape, pointer 0,
empty stacks and buffers, scanning from index 0, with the given console
input stream. -/
def initSt (inp : List (Option String)) : InterpSt :=
  ⟨List.replicate 100 0, 0, [], false, 0, 0, [], inp⟩

/-- Kind of the instruction stored at index `i`. -/
def instTyp (l : List Inst) (i : Nat) : Token := (l.getD i dInst).typ

/-- Argument of the instruction stored at index `i`. -/
def instArg (l : List Inst) (i : Nat) : Nat := (l.getD i dInst).argument

/-- Expansion of one instruction back into tokens: a foldable instruction
becomes `argument` copies of its operator, a loop instruction becomes its
single bracket operator. -/
def expand_inst (inst : Inst) : List Token :=
  match inst.typ with
  | Token.JumpIfZero => [Token.JumpIfZero]
  | Token.JumpIfNonZero => [Token.JumpIfNonZero]
  | t => List.replicate inst.argument t

/-- Expansion of an instruction list back into the token sequence it was
folded from. -/
def expand (insts : List Inst) : List Token :=
  (insts.map expand_inst).flatten

/-- Bracket balance check starting from nesting depth `d`: every close
must find a strictly positive depth, and the final depth must be zero. -/
def balancedFrom : List Token → Nat → Bool
  | [], d => d == 0
  | Token.JumpIfZero :: rest, d => balancedFrom rest (d + 1)
  | Token.JumpIfNonZero :: rest, d => d != 0 && balancedFrom rest (d - 1)
  | _ :: rest, d => balancedFrom rest d

/-- A token sequence has balanced brackets. -/
def balanced (ts : List Token) : Bool := balancedFrom ts 0

/-- Scanning from nesting depth `d`, some loop-close is reached while the
depth is zero — exactly the situation in which `parse_program` pops an
empty jump-match stack. -/
def close_at_depth_zero : List Token → Nat → Bool
  | [], _ => false
  | Token.JumpIfZero :: rest, d => close_at_depth_zero rest (d + 1)
  | Token.JumpIfNonZero :: rest, d => d == 0 || close_at_depth_zero rest (d - 1)
  | _ :: rest, d => close_at_depth_zero rest d

/-- A token is foldable when it is not one of the two loop brackets. -/
def foldable (t : Token) : Prop :=
  t ≠ Token.JumpIfZero ∧ t ≠ Token.JumpIfNonZero

/-- The round-trip pairing law: every loop-open's argument is the index of
a loop-close whose argument points back at it, and symmetrically. -/
def pairing_law (insts : List Inst) : Prop :=
  ∀ i, i < insts.length →
    (instTyp insts i = Token.JumpIfZero →
      instArg insts i < insts.length
      ∧ instTyp insts (instArg insts i) = Token.JumpIfNonZero
      ∧ instArg insts (instArg insts i) = i)
    ∧ (instTyp insts i = Token.JumpIfNonZero →
      instArg insts i < insts.length
      ∧ instTyp insts (instArg insts i) = Token.JumpIfZero
      ∧ instArg insts (instArg insts i) = i)

/-- Invariant of the parse loop.  `stack` holds the indices of the
still-unmatched loop-opens; the ghost list `P` records the (open index,
close index) pairs matched so far. -/
structure ParseInv (insts : List Inst) (stack : List Nat)
    (P : List (Nat × Nat)) : Prop where
  stk_lt : ∀ p ∈ stack, p < insts.length
  stk_open : ∀ p ∈ stack, instTyp insts p = Token.JumpIfZero
  stk_nodup : stack.Nodup
  pairs_ok : ∀ pr ∈ P, pr.1 < insts.length ∧ pr.2 < insts.length
    ∧ instTyp insts pr.1 = Token.JumpIfZero
    ∧ instTyp insts pr.2 = Token.JumpIfNonZero
    ∧ instArg insts pr.1 = pr.2 ∧ instArg insts pr.2 = pr.1
  opens_covered : ∀ i, i < insts.length →
    instTyp insts i = Token.JumpIfZero → i ∈ stack ∨ ∃ pr ∈ P, pr.1 = i
  closes_covered : ∀ i, i < insts.length →
    instTyp insts i = Token.JumpIfNonZero → ∃ pr ∈ P, pr.2 = i
  stk_fresh : ∀ p ∈ stack, ∀ pr ∈ P, pr.1 ≠ p ∧ pr.2 ≠ p
  count_open : insts.countP (fun inst => inst.typ == Token.JumpIfZero)
    = stack.length + P.length
  count_close : insts.countP (fun inst => inst.typ == Token.JumpIfNonZero)
    = P.length

theorem parse_aux_nil (instructions : List Inst) (stack : List Nat) :
    parse_program_aux [] instructions stack = some instructions := by
  simp [parse_program_aux]

theorem parse_aux_open (rest : List Token) (instructions : List Inst)
    (stack : List Nat) :
    parse_program_aux (Token.JumpIfZero :: rest) instructions stack
      = parse_program_aux rest (instructions ++ [⟨Token.JumpIfZero, 0⟩])
          (instructions.length :: stack) := by
  simp [parse_program_aux]

theorem parse_aux_close_nil (rest : List Token) (instructions : List Inst) :
    parse_program_aux (Token.JumpIfNonZero :: rest) instructions [] = none := by
  simp [parse_program_aux]

theorem parse_aux_close (rest : List Token) (instructions : List Inst)
    (p : Nat) (stack' : List Nat) (h : p < instructions.length) :
    parse_program_aux (Token.JumpIfNonZero :: rest) instructions (p :: stack')
      = parse_program_aux rest
          ((instructions.set p
              ⟨(instructions.getD p dInst).typ, instructions.length⟩)
            ++ [⟨Token.JumpIfNonZero, p⟩]) stack' := by
  simp [parse_program_aux, List.getElem?_eq_getElem h, List.getD_eq_getElem?_getD,
    List.getElem?_eq_getElem h]

theorem parse_aux_foldable (t : Token) (hf : foldable t) (rest : List Token)
    (instructions : List Inst) (stack : List Nat) :
    parse_program_aux (t :: rest) instructions stack
      = parse_program_aux (rest.dropWhile (fun u => u == t))
          (instructions ++ [compile_foldable t rest]) stack := by
  obtain ⟨h1, h2⟩ := hf
  cases t
  case JumpIfZero => exact absurd rfl h1
  case JumpIfNonZero => exact absurd rfl h2
  all_goals simp [parse_program_aux]

theorem close_at_depth_zero_foldable (t : Token) (hf : foldable t)
    (rest : List Token) (d : Nat) :
    close_at_depth_zero (t :: rest) d = close_at_depth_zero rest d := by
  obtain ⟨h1, h2⟩ := hf
  cases t
  case JumpIfZero => exact absurd rfl h1
  case JumpIfNonZero => exact absurd rfl h2
  all_goals rfl

theorem close_at_depth_zero_dropWhile (t : Token) (hf : foldable t) :
    ∀ (l : List Token) (d : Nat),
      close_at_depth_zero (l.dropWhile (fun u => u == t)) d
        = close_at_depth_zero l d := by
  intro l
  induction l with
  | nil => intro d; rfl
  | cons u rest ih =>
      intro d
      by_cases hu : u = t
      · subst hu
        rw [List.dropWhile_cons_of_pos (by simp), ih d,
          close_at_depth_zero_foldable u hf rest d]
      · rw [List.dropWhile_cons_of_neg (by simp [hu])]

theorem parse_fails_of_premature_close :
    ∀ (n : Nat) (ts : List Token) (instructions : List Inst)
      (stack : List Nat), ts.length ≤ n →
      close_at_depth_zero ts stack.length = true →
      parse_program_aux ts instructions stack = none := by
  intro n
  induction n with
  | zero =>
      intro ts instructions stack hlen hc
      rw [Nat.le_zero, List.length_eq_zero] at hlen
      subst hlen
      exact absurd hc (by simp [close_at_depth_zero])
  | succ n ih =>
      intro ts instructions stack hlen hc
      cases ts with
      | nil => exact absurd hc (by simp [close_at_depth_zero])
      | cons t rest =>
          simp only [List.length_cons, Nat.succ_le_succ_iff] at hlen
          by_cases hopen : t = Token.JumpIfZero
          · subst hopen
            rw [parse_aux_open]
            refine ih rest _ (instructions.length :: stack) hlen ?_
            simpa [close_at_depth_zero] using hc
          by_cases hclose : t = Token.JumpIfNonZero
          · subst hclose
            cases stack with
            | nil => exact parse_aux_close_nil rest instructions
            | cons p stack' =>
                rcases Nat.lt_or_ge p instructions.length with hp | hp
                · rw [parse_aux_close rest instructions p stack' hp]
                  refine ih rest _ stack' hlen ?_
                  simpa [close_at_depth_zero] using hc
                · simp [parse_program_aux,
                    List.getElem?_eq_none (by simpa using hp)]
          · have hf : foldable t := ⟨hopen, hclose⟩
            rw [parse_aux_foldable t hf]
            refine ih _ _ stack
              (le_trans (length_dropWhile_le _ _) hlen) ?_
            rw [close_at_depth_zero_dropWhile t hf,
              ← close_at_depth_zero_foldable t hf rest stack.length]
            exact hc

set_option maxRecDepth 20000 in
/-- C5: whenever the token sequence reaches a loop-close at bracket depth
zero — i.e. `parse_program` pops the empty jump-match stack, as with the
source consisting only of `"]"` — the parse does not return an
instruction list: the `unwrap` panic is modelled as `none`. -/
theorem c5_premature_close_is_fatal :
    ∀ ts, close_at_depth_zero ts 0 = true → parse_program ts = none :=
  fun ts hc =>
    parse_fails_of_premature_close ts.length ts [] [] le_rfl hc

/-- Witness for C5 at the one-character source `"]"`. -/
theorem c5_premature_close_is_fatal_witness :
    close_at_depth_zero (lex_program "]") 0 = true
    ∧ parse_program (lex_program "]") = none :=
  ⟨by decide, c5_premature_close_is_fatal (lex_program "]") (by decide)⟩

theorem set_get_self_eq (l : List α) (n : Nat) (h : n < l.length) :
    l.set n (l.get ⟨n, h⟩) = l := by
  apply List.ext_getElem (by simp)
  intro i h1 h2
  by_cases hi : n = i
  · subst hi; simp [List.get_eq_getElem]
  · simp [List.getElem_set_ne hi]

theorem expand_append (l1 l2 : List Inst) :
    expand (l1 ++ l2) = expand l1 ++ expand l2 := by
  simp [expand]

theorem expand_inst_foldable (t : Token) (hf : foldable t) (n : Nat) :
    expand_inst ⟨t, n⟩ = List.replicate n t := by
  obtain ⟨h1, h2⟩ := hf
  cases t
  case JumpIfZero => exact absurd rfl h1
  case JumpIfNonZero => exact absurd rfl h2
  all_goals rfl

theorem takeWhile_beq_eq_replicate (t : Token) (l : List Token) :
    l.takeWhile (fun u => u == t)
      = List.replicate (l.takeWhile (fun u => u == t)).length t := by
  apply List.eq_replicate_of_mem
  intro b hb
  simpa using List.mem_takeWhile_imp hb

theorem expand_compile_foldable (t : Token) (hf : foldable t)
    (rest : List Token) :
    expand [compile_foldable t rest]
      = t :: rest.takeWhile (fun u => u == t) := by
  show expand_inst (compile_foldable t rest) ++ [] = _
  rw [List.append_nil, compile_foldable, expand_inst_foldable t hf,
    List.replicate_succ]
  rw [← takeWhile_beq_eq_replicate]

theorem parse_aux_expand :
    ∀ (n : Nat) (ts : List Token) (instructions : List Inst)
      (stack : List Nat) (res : List Inst),
      ts.length ≤ n →
      (∀ p ∈ stack, p < instructions.length
        ∧ instTyp instructions p = Token.JumpIfZero) →
      parse_program_aux ts instructions stack = some res →
      expand res = expand instructions ++ ts := by
  intro n
  induction n with
  | zero =>
      intro ts insts stack res hlen hstk hp
      rw [Nat.le_zero, List.length_eq_zero] at hlen
      subst hlen
      rw [parse_aux_nil] at hp
      cases hp
      simp
  | succ n ih =>
      intro ts insts stack res hlen hstk hp
      cases ts with
      | nil =>
          rw [parse_aux_nil] at hp
          cases hp
          simp
      | cons t rest =>
          simp only [List.length_cons, Nat.succ_le_succ_iff] at hlen
          by_cases hopen : t = Token.JumpIfZero
          · subst hopen
            rw [parse_aux_open] at hp
            have hstk' : ∀ p ∈ insts.length :: stack,
                p < (insts ++ [(⟨Token.JumpIfZero, 0⟩ : Inst)]).length
                ∧ instTyp (insts ++ [⟨Token.JumpIfZero, 0⟩]) p
                    = Token.JumpIfZero := by
              intro p hpmem
              rcases List.mem_cons.1 hpmem with hpe | hpm
              · subst hpe
                constructor
                · simp
                · simp [instTyp, List.getD_eq_getElem?_getD,
                    List.getElem?_append_right (le_refl insts.length)]
              · obtain ⟨hlt, hty⟩ := hstk p hpm
                refine ⟨by simp; omega, ?_⟩
                rw [instTyp, List.getD_eq_getElem?_getD,
                  List.getElem?_append_left hlt]
                simpa [instTyp] using hty
            rw [ih rest _ _ res hlen hstk' hp, expand_append]
            simp [expand, expand_inst]
          by_cases hclose : t = Token.JumpIfNonZero
          · subst hclose
            cases stack with
            | nil => rw [parse_aux_close_nil] at hp; cases hp
            | cons p stack' =>
                obtain ⟨hplt, hpty⟩ := hstk p (List.mem_cons_self p stack')
                rw [parse_aux_close rest insts p stack' hplt] at hp
                have hexpset : expand (insts.set p
                    ⟨(insts.getD p dInst).typ, insts.length⟩) = expand insts := by
                  have harg : expand_inst ⟨(insts.getD p dInst).typ, insts.length⟩
                      = expand_inst (insts.getD p dInst) := by
                    rw [instTyp] at hpty
                    rw [hpty]
                    conv_rhs => rw [show insts.getD p dInst
                      = ⟨(insts.getD p dInst).typ, (insts.getD p dInst).argument⟩
                        from rfl, hpty]
                    rfl
                  rw [expand, List.map_set, harg]
                  have hplt2 : p < (insts.map expand_inst).length := by
                    simpa using hplt
                  have hmap : expand_inst (insts.getD p dInst)
                      = (insts.map expand_inst).get ⟨p, hplt2⟩ := by
                    simp [List.getD_eq_getElem?_getD,
                      List.getElem?_eq_getElem hplt, List.get_eq_getElem]
                  rw [hmap, set_get_self_eq _ _ hplt2]
                  rfl
                have hstk' : ∀ q ∈ stack',
                    q < ((insts.set p ⟨(insts.getD p dInst).typ, insts.length⟩)
                        ++ [(⟨Token.JumpIfNonZero, p⟩ : Inst)]).length
                    ∧ instTyp ((insts.set p ⟨(insts.getD p dInst).typ, insts.length⟩)
                        ++ [⟨Token.JumpIfNonZero, p⟩]) q = Token.JumpIfZero := by
                  intro q hq
                  obtain ⟨hqlt, hqty⟩ := hstk q (List.mem_cons_of_mem p hq)
                  refine ⟨by simp; omega, ?_⟩
                  rw [instTyp, List.getD_eq_getElem?_getD,
                    List.getElem?_append_left (by simpa using hqlt)]
                  by_cases hqp : q = p
                  · subst hqp
                    simp only [List.getElem?_set_self (by simpa using hqlt)]
                    rw [instTyp] at hqty
                    simpa using hqty
                  · rw [List.getElem?_set_ne (fun h => hqp h.symm)]
                    rw [instTyp, List.getD_eq_getElem?_getD] at hqty
                    exact hqty
                rw [ih rest _ _ res hlen hstk' hp, expand_append, hexpset]
                simp [expand, expand_inst]
          · have hf : foldable t := ⟨hopen, hclose⟩
            rw [parse_aux_foldable t hf] at hp
            have hstk' : ∀ p ∈ stack,
                p < (insts ++ [compile_foldable t rest]).length
                ∧ instTyp (insts ++ [compile_foldable t rest]) p
                    = Token.JumpIfZero := by
              intro p hpmem
              obtain ⟨hlt, hty⟩ := hstk p hpmem
              refine ⟨by simp; omega, ?_⟩
              rw [instTyp, List.getD_eq_getElem?_getD,
                List.getElem?_append_left hlt]
              simpa [instTyp] using hty
            rw [ih _ _ _ res (le_trans (length_dropWhile_le _ _) hlen) hstk' hp,
              expand_append, expand_compile_foldable t hf]
            simp [List.takeWhile_append_dropWhile]

/-- C6: folding round-trip.  Whenever `parse_program` returns an
instruction list, expanding it — each foldable instruction replaced by
`argument` copies of its operator, each loop instruction by its single
bracket — reproduces the original token sequence exactly, in order. -/
theorem c6_folding_round_trip :
    ∀ ts res, parse_program ts = some res → expand res = ts := by
  intro ts res hp
  have h := parse_aux_expand ts.length ts [] [] res le_rfl (by simp) hp
  simpa [expand] using h

/-- Witness for C6 at the source `"++>+[-]"`. -/
theorem c6_folding_round_trip_witness :
    expand [⟨Token.Plus, 2⟩, ⟨Token.Right, 1⟩, ⟨Token.Plus, 1⟩,
        ⟨Token.JumpIfZero, 5⟩, ⟨Token.Minus, 1⟩, ⟨Token.JumpIfNonZero, 3⟩]
      = lex_program "++>+[-]" :=
  c6_folding_round_trip (lex_program "++>+[-]") _
    (by simp [parse_program, parse_program_aux, compile_foldable, lex_program])

theorem instTyp_append_left (l l' : List Inst) (i : Nat) (h : i < l.length) :
    instTyp (l ++ l') i = instTyp l i := by
  simp [instTyp, List.getD_eq_getElem?_getD, List.getElem?_append_left h]

theorem instArg_append_left (l l' : List Inst) (i : Nat) (h : i < l.length) :
    instArg (l ++ l') i = instArg l i := by
  simp [instArg, List.getD_eq_getElem?_getD, List.getElem?_append_left h]

theorem instTyp_append_self (l : List Inst) (a : Inst) :
    instTyp (l ++ [a]) l.length = a.typ := by
  simp [instTyp, List.getD_eq_getElem?_getD,
    List.getElem?_append_right (le_refl l.length)]

theorem instArg_append_self (l : List Inst) (a : Inst) :
    instArg (l ++ [a]) l.length = a.argument := by
  simp [instArg, List.getD_eq_getElem?_getD,
    List.getElem?_append_right (le_refl l.length)]

theorem instTyp_set_self (l : List Inst) (i : Nat) (a : Inst)
    (h : i < l.length) : instTyp (l.set i a) i = a.typ := by
  simp [instTyp, List.getD_eq_getElem?_getD,
    List.getElem?_set_self (by simpa using h)]

theorem instArg_set_self (l : List Inst) (i : Nat) (a : Inst)
    (h : i < l.length) : instArg (l.set i a) i = a.argument := by
  simp [instArg, List.getD_eq_getElem?_getD,
    List.getElem?_set_self (by simpa using h)]

theorem instTyp_set_ne (l : List Inst) (i j : Nat) (a : Inst) (h : i ≠ j) :
    instTyp (l.set i a) j = instTyp l j := by
  simp [instTyp, List.getD_eq_getElem?_getD, List.getElem?_set_ne h]

theorem instArg_set_ne (l : List Inst) (i j : Nat) (a : Inst) (h : i ≠ j) :
    instArg (l.set i a) j = instArg l j := by
  simp [instArg, List.getD_eq_getElem?_getD, List.getElem?_set_ne h]

theorem countP_set_eq (pr : α → Bool) :
    ∀ (l : List α) (n : Nat) (a : α) (h : n < l.length),
      pr a = pr (l.get ⟨n, h⟩) → (l.set n a).countP pr = l.countP pr := by
  intro l
  induction l with
  | nil => intro n a h; simp at h
  | cons x xs ih =>
      intro n a h he
      cases n with
      | zero =>
          simp only [List.get] at he
          simp [List.countP_cons, he]
      | succ m =>
          have h' : m < xs.length := by simpa using h
          simp only [List.get] at he
          simp only [List.set_cons_succ, List.countP_cons, ih m a h' he]

theorem balancedFrom_foldable (t : Token) (hf : foldable t)
    (rest : List Token) (d : Nat) :
    balancedFrom (t :: rest) d = balancedFrom rest d := by
  obtain ⟨h1, h2⟩ := hf
  cases t
  case JumpIfZero => exact absurd rfl h1
  case JumpIfNonZero => exact absurd rfl h2
  all_goals rfl

theorem balancedFrom_dropWhile (t : Token) (hf : foldable t) :
    ∀ (l : List Token) (d : Nat),
      balancedFrom (l.dropWhile (fun u => u == t)) d = balancedFrom l d := by
  intro l
  induction l with
  | nil => intro d; rfl
  | cons u rest ih =>
      intro d
      by_cases hu : u = t
      · subst hu
        rw [List.dropWhile_cons_of_pos (by simp), ih d,
          balancedFrom_foldable u hf rest d]
      · rw [List.dropWhile_cons_of_neg (by simp [hu])]

theorem parse_aux_inv :
    ∀ (n : Nat) (ts : List Token) (insts : List Inst) (stack : List Nat)
      (P : List (Nat × Nat)),
      ts.length ≤ n → ParseInv insts stack P →
      balancedFrom ts stack.length = true →
      ∃ res P', parse_program_aux ts insts stack = some res
        ∧ ParseInv res [] P' := by
  intro n
  induction n with
  | zero =>
      intro ts insts stack P hlen hinv hb
      rw [Nat.le_zero, List.length_eq_zero] at hlen
      subst hlen
      have hd : stack.length = 0 := by simpa [balancedFrom] using hb
      rw [List.length_eq_zero] at hd
      subst hd
      exact ⟨insts, P, parse_aux_nil insts [], hinv⟩
  | succ n ih =>
      intro ts insts stack P hlen hinv hb
      cases ts with
      | nil =>
          have hd : stack.length = 0 := by simpa [balancedFrom] using hb
          rw [List.length_eq_zero] at hd
          subst hd
          exact ⟨insts, P, parse_aux_nil insts [], hinv⟩
      | cons t rest =>
          simp only [List.length_cons, Nat.succ_le_succ_iff] at hlen
          by_cases hopen : t = Token.JumpIfZero
          · subst hopen
            have hb' : balancedFrom rest (insts.length :: stack).length
                = true := by
              simpa [balancedFrom] using hb
            have hinv' : ParseInv (insts ++ [⟨Token.JumpIfZero, 0⟩])
                (insts.length :: stack) P := by
              constructor
              · intro p hp
                rcases List.mem_cons.1 hp with hpe | hm
                · subst hpe; simp
                · have := hinv.stk_lt p hm; simp; omega
              · intro p hp
                rcases List.mem_cons.1 hp with hpe | hm
                · subst hpe; rw [instTyp_append_self]
                · rw [instTyp_append_left _ _ _ (hinv.stk_lt p hm)]
                  exact hinv.stk_open p hm
              · rw [List.nodup_cons]
                exact ⟨fun hmem => absurd (hinv.stk_lt _ hmem)
                  (lt_irrefl _), hinv.stk_nodup⟩
              · intro pr hpr
                obtain ⟨h1, h2, h3, h4, h5, h6⟩ := hinv.pairs_ok pr hpr
                refine ⟨by simp; omega, by simp; omega, ?_, ?_, ?_, ?_⟩
                · rw [instTyp_append_left _ _ _ h1]; exact h3
                · rw [instTyp_append_left _ _ _ h2]; exact h4
                · rw [instArg_append_left _ _ _ h1]; exact h5
                · rw [instArg_append_left _ _ _ h2]; exact h6
              · intro i hi hty
                by_cases hie : i = insts.length
                · subst hie; exact Or.inl (List.mem_cons_self _ _)
                · have hi' : i < insts.length := by simp at hi; omega
                  rw [instTyp_append_left _ _ _ hi'] at hty
                  rcases hinv.opens_covered i hi' hty with hm | hpair
                  · exact Or.inl (List.mem_cons_of_mem _ hm)
                  · exact Or.inr hpair
              · intro i hi hty
                by_cases hie : i = insts.length
                · subst hie
                  rw [instTyp_append_self] at hty
                  exact absurd hty (by decide)
                · have hi' : i < insts.length := by simp at hi; omega
                  rw [instTyp_append_left _ _ _ hi'] at hty
                  exact hinv.closes_covered i hi' hty
              · intro p hp pr hpr
                rcases List.mem_cons.1 hp with hpe | hm
                · subst hpe
                  obtain ⟨h1, h2, _⟩ := hinv.pairs_ok pr hpr
                  exact ⟨by omega, by omega⟩
                · exact hinv.stk_fresh p hm pr hpr
              · rw [List.countP_append, hinv.count_open]
                simp [List.countP_cons]
                omega
              · rw [List.countP_append, hinv.count_close]
                simp [List.countP_cons]
            obtain ⟨res, P', hres, hinvres⟩ := ih rest _ _ P hlen hinv' hb'
            exact ⟨res, P', by rw [parse_aux_open]; exact hres, hinvres⟩
          by_cases hclose : t = Token.JumpIfNonZero
          · subst hclose
            cases stack with
            | nil => simp [balancedFrom] at hb
            | cons p stack' =>
                have hplt : p < insts.length :=
                  hinv.stk_lt p (List.mem_cons_self p stack')
                have hpty : instTyp insts p = Token.JumpIfZero :=
                  hinv.stk_open p (List.mem_cons_self p stack')
                have hp_notin : p ∉ stack' :=
                  (List.nodup_cons.1 hinv.stk_nodup).1
                have hnodup' : stack'.Nodup :=
                  (List.nodup_cons.1 hinv.stk_nodup).2
                have hb' : balancedFrom rest stack'.length = true := by
                  simpa [balancedFrom] using hb
                have hsetlen :
                    (insts.set p ⟨(insts.getD p dInst).typ,
                      insts.length⟩).length = insts.length := by simp
                have htyp_at : ∀ j, j < insts.length → j ≠ p →
                    instTyp ((insts.set p ⟨(insts.getD p dInst).typ,
                        insts.length⟩) ++ [⟨Token.JumpIfNonZero, p⟩]) j
                      = instTyp insts j := by
                  intro j hj hjp
                  rw [instTyp_append_left _ _ _ (by simpa [hsetlen] using hj)]
                  exact instTyp_set_ne _ _ _ _ (fun h => hjp h.symm)
                have harg_at : ∀ j, j < insts.length → j ≠ p →
                    instArg ((insts.set p ⟨(insts.getD p dInst).typ,
                        insts.length⟩) ++ [⟨Token.JumpIfNonZero, p⟩]) j
                      = instArg insts j := by
                  intro j hj hjp
                  rw [instArg_append_left _ _ _ (by simpa [hsetlen] using hj)]
                  exact instArg_set_ne _ _ _ _ (fun h => hjp h.symm)
                have htyp_p : instTyp ((insts.set p ⟨(insts.getD p dInst).typ,
                    insts.length⟩) ++ [⟨Token.JumpIfNonZero, p⟩]) p
                      = Token.JumpIfZero := by
                  rw [instTyp_append_left _ _ _ (by simpa [hsetlen] using hplt),
                    instTyp_set_self _ _ _ hplt]
                  exact hpty
                have harg_p : instArg ((insts.set p ⟨(insts.getD p dInst).typ,
                    insts.length⟩) ++ [⟨Token.JumpIfNonZero, p⟩]) p
                      = insts.length := by
                  rw [instArg_append_left _ _ _ (by simpa [hsetlen] using hplt),
                    instArg_set_self _ _ _ hplt]
                have htyp_L : instTyp ((insts.set p ⟨(insts.getD p dInst).typ,
                    insts.length⟩) ++ [⟨Token.JumpIfNonZero, p⟩]) insts.length
                      = Token.JumpIfNonZero := by
                  have h0 := instTyp_append_self
                    (insts.set p ⟨(insts.getD p dInst).typ, insts.length⟩)
                    ⟨Token.JumpIfNonZero, p⟩
                  rwa [hsetlen] at h0
                have harg_L : instArg ((insts.set p ⟨(insts.getD p dInst).typ,
                    insts.length⟩) ++ [⟨Token.JumpIfNonZero, p⟩]) insts.length
                      = p := by
                  have h0 := instArg_append_self
                    (insts.set p ⟨(insts.getD p dInst).typ, insts.length⟩)
                    ⟨Token.JumpIfNonZero, p⟩
                  rwa [hsetlen] at h0
                have hlen2 : ((insts.set p ⟨(insts.getD p dInst).typ,
                    insts.length⟩) ++ [(⟨Token.JumpIfNonZero, p⟩ : Inst)]).length
                      = insts.length + 1 := by simp
                have hinv' : ParseInv
                    ((insts.set p ⟨(insts.getD p dInst).typ, insts.length⟩)
                      ++ [⟨Token.JumpIfNonZero, p⟩])
                    stack' ((p, insts.length) :: P) := by
                  constructor
                  · intro q hq
                    have := hinv.stk_lt q (List.mem_cons_of_mem p hq)
                    rw [hlen2]; omega
                  · intro q hq
                    have hqp : q ≠ p := fun h => hp_notin (h ▸ hq)
                    rw [htyp_at q (hinv.stk_lt q (List.mem_cons_of_mem p hq)) hqp]
                    exact hinv.stk_open q (List.mem_cons_of_mem p hq)
                  · exact hnodup'
                  · intro pr hpr
                    rcases List.mem_cons.1 hpr with hpe | hm
                    · subst hpe
                      exact ⟨by rw [hlen2]; omega, by rw [hlen2]; omega,
                        htyp_p, htyp_L, harg_p, harg_L⟩
                    · obtain ⟨h1, h2, h3, h4, h5, h6⟩ := hinv.pairs_ok pr hm
                      obtain ⟨hf1, hf2⟩ := hinv.stk_fresh p
                        (List.mem_cons_self p stack') pr hm
                      exact ⟨by rw [hlen2]; omega, by rw [hlen2]; omega,
                        by rw [htyp_at pr.1 h1 hf1]; exact h3,
                        by rw [htyp_at pr.2 h2 hf2]; exact h4,
                        by rw [harg_at pr.1 h1 hf1]; exact h5,
                        by rw [harg_at pr.2 h2 hf2]; exact h6⟩
                  · intro i hi hty
                    rw [hlen2] at hi
                    by_cases hiL : i = insts.length
                    · subst hiL
                      rw [htyp_L] at hty
                      exact absurd hty (by decide)
                    · have hi' : i < insts.length := by omega
                      by_cases hip : i = p
                      · subst hip
                        exact Or.inr ⟨(i, insts.length),
                          List.mem_cons_self _ _, rfl⟩
                      · rw [htyp_at i hi' hip] at hty
                        rcases hinv.opens_covered i hi' hty with hm | ⟨pr, hm, he⟩
                        · rcases List.mem_cons.1 hm with hie | hm'
                          · exact absurd hie hip
                          · exact Or.inl hm'
                        · exact Or.inr ⟨pr, List.mem_cons_of_mem _ hm, he⟩
                  · intro i hi hty
                    rw [hlen2] at hi
                    by_cases hiL : i = insts.length
                    · subst hiL
                      exact ⟨(p, insts.length), List.mem_cons_self _ _, rfl⟩
                    · have hi' : i < insts.length := by omega
                      by_cases hip : i = p
                      · subst hip
                        rw [htyp_p] at hty
                        exact absurd hty (by decide)
                      · rw [htyp_at i hi' hip] at hty
                        obtain ⟨pr, hm, he⟩ := hinv.closes_covered i hi' hty
                        exact ⟨pr, List.mem_cons_of_mem _ hm, he⟩
                  · intro q hq pr hpr
                    rcases List.mem_cons.1 hpr with hpe | hm
                    · subst hpe
                      show p ≠ q ∧ insts.length ≠ q
                      refine ⟨fun h => hp_notin (h.symm ▸ hq), fun h => ?_⟩
                      have := hinv.stk_lt q (List.mem_cons_of_mem p hq)
                      omega
                    · exact hinv.stk_fresh q (List.mem_cons_of_mem p hq) pr hm
                  · rw [List.countP_append,
                      countP_set_eq _ insts p _ hplt (by
                        simp [List.getD_eq_getElem?_getD,
                          List.getElem?_eq_getElem hplt, List.get_eq_getElem]),
                      hinv.count_open]
                    simp [List.countP_cons]
                    omega
                  · rw [List.countP_append,
                      countP_set_eq _ insts p _ hplt (by
                        simp [List.getD_eq_getElem?_getD,
                          List.getElem?_eq_getElem hplt, List.get_eq_getElem]),
                      hinv.count_close]
                    simp [List.countP_cons]
                obtain ⟨res, P', hres, hinvres⟩ :=
                  ih rest _ stack' _ hlen hinv' hb'
                exact ⟨res, P',
                  by rw [parse_aux_close rest insts p stack' hplt]; exact hres,
                  hinvres⟩
          · have hf : foldable t := ⟨hopen, hclose⟩
            have hb' : balancedFrom (rest.dropWhile (fun u => u == t))
                stack.length = true := by
              rw [balancedFrom_dropWhile t hf,
                ← balancedFrom_foldable t hf rest stack.length]
              exact hb
            have hinv' : ParseInv (insts ++ [compile_foldable t rest])
                stack P := by
              constructor
              · intro q hq
                have := hinv.stk_lt q hq
                simp
                omega
              · intro q hq
                rw [instTyp_append_left _ _ _ (hinv.stk_lt q hq)]
                exact hinv.stk_open q hq
              · exact hinv.stk_nodup
              · intro pr hpr
                obtain ⟨h1, h2, h3, h4, h5, h6⟩ := hinv.pairs_ok pr hpr
                refine ⟨by simp; omega, by simp; omega, ?_, ?_, ?_, ?_⟩
                · rw [instTyp_append_left _ _ _ h1]; exact h3
                · rw [instTyp_append_left _ _ _ h2]; exact h4
                · rw [instArg_append_left _ _ _ h1]; exact h5
                · rw [instArg_append_left _ _ _ h2]; exact h6
              · intro i hi hty
                by_cases hie : i = insts.length
                · subst hie
                  rw [instTyp_append_self] at hty
                  exact absurd hty hopen
                · have hi' : i < insts.length := by simp at hi; omega
                  rw [instTyp_append_left _ _ _ hi'] at hty
                  rcases hinv.opens_covered i hi' hty with hm | hpair
                  · exact Or.inl hm
                  · exact Or.inr hpair
              · intro i hi hty
                by_cases hie : i = insts.length
                · subst hie
                  rw [instTyp_append_self] at hty
                  exact absurd hty hclose
                · have hi' : i < insts.length := by simp at hi; omega
                  rw [instTyp_append_left _ _ _ hi'] at hty
                  exact hinv.closes_covered i hi' hty
              · exact hinv.stk_fresh
              · rw [List.countP_append, hinv.count_open]
                simp [List.countP_cons, compile_foldable, hopen]
              · rw [List.countP_append, hinv.count_close]
                simp [List.countP_cons, compile_foldable, hclose]
            obtain ⟨res, P', hres, hinvres⟩ := ih _ _ _ P
              (le_trans (length_dropWhile_le _ _) hlen) hinv' hb'
            exact ⟨res, P',
              by rw [parse_aux_foldable t hf]; exact hres, hinvres⟩

/-- C4: for every token sequence with balanced brackets, `parse_program`
succeeds and its output contains equally many `JumpIfZero` and
`JumpIfNonZero` instructions; moreover the round-trip pairing law holds:
every loop-open's argument is the index of a loop-close whose argument
points back at the loop-open, and vice versa — at every nesting depth and
for any number of sibling loops (the hypothesis quantifies over all
balanced inputs). -/
theorem c4_round_trip_pairing :
    ∀ ts, balanced ts = true →
      ∃ insts, parse_program ts = some insts
        ∧ insts.countP (fun inst => inst.typ == Token.JumpIfZero)
            = insts.countP (fun inst => inst.typ == Token.JumpIfNonZero)
        ∧ pairing_law insts := by
  intro ts hb
  have hinv0 : ParseInv [] [] [] := by
    constructor <;> simp
  obtain ⟨res, P', hres, hinv⟩ := parse_aux_inv ts.length ts [] [] []
    le_rfl hinv0 (by simpa [balanced] using hb)
  refine ⟨res, hres, ?_, ?_⟩
  · rw [hinv.count_open, hinv.count_close]
    simp
  · intro i hi
    constructor
    · intro hty
      rcases hinv.opens_covered i hi hty with hm | ⟨pr, hm, he⟩
      · simp at hm
      · obtain ⟨h1, h2, h3, h4, h5, h6⟩ := hinv.pairs_ok pr hm
        rw [he] at h5
        refine ⟨by rw [h5]; exact h2, by rw [h5]; exact h4, ?_⟩
        rw [h5, h6]
        exact he
    · intro hty
      obtain ⟨pr, hm, he⟩ := hinv.closes_covered i hi hty
      obtain ⟨h1, h2, h3, h4, h5, h6⟩ := hinv.pairs_ok pr hm
      rw [he] at h6
      refine ⟨by rw [h6]; exact h1, by rw [h6]; exact h3, ?_⟩
      rw [h6, h5]
      exact he

/-- Witness for C4 at the depth-3 source `"[[][[]]]"` with sibling loops. -/
theorem c4_round_trip_pairing_witness :
    balanced (lex_program "[[][[]]]") = true
    ∧ ∃ insts, parse_program (lex_program "[[][[]]]") = some insts
        ∧ insts.countP (fun inst => inst.typ == Token.JumpIfZero)
            = insts.countP (fun inst => inst.typ == Token.JumpIfNonZero)
        ∧ pairing_law insts :=
  ⟨by decide, c4_round_trip_pairing (lex_program "[[][[]]]") (by decide)⟩

theorem parse_replicate_putchar (k : Nat) (hk : 0 < k) :
    parse_program (List.replicate k Token.PutChar)
      = some [⟨Token.PutChar, k⟩] := by
  obtain ⟨m, rfl⟩ : ∃ m, k = m + 1 := ⟨k - 1, by omega⟩
  rw [parse_program, List.replicate_succ,
    parse_aux_foldable Token.PutChar ⟨by decide, by decide⟩]
  simp [List.dropWhile_replicate, List.takeWhile_replicate,
    compile_foldable, parse_aux_nil]

theorem step_dot (prog : List Char) (st : InterpSt)
    (h1 : st.is_looping = false) (h2 : st.i < prog.length)
    (h3 : prog.getD st.i ' ' = '.') (h4 : st.ptr < st.tape.length) :
    step prog st = .next { st with
      output := st.output ++ [Char.ofNat (st.tape.getD st.ptr 0)],
      i := st.i + 1 } := by
  have hc : prog[st.i] = '.' := by
    simpa [List.getElem?_eq_getElem h2] using h3
  simp [step, h1, h2, h4, hc, List.getD_eq_getElem?_getD,
    List.getElem?_eq_getElem h4]

theorem dots_run :
    ∀ (m j : Nat),
      interpRun (List.replicate (j + m) '.') (m + 1)
        { initSt [] with i := j, output := List.replicate j (Char.ofNat 0) }
      = Res.done { initSt [] with
                   i := j + m,
                   output := List.replicate (j + m) (Char.ofNat 0) } := by
  intro m
  induction m with
  | zero =>
      intro j
      simp only [Nat.add_zero]
      rw [interpRun]
      have hstep : step (List.replicate j '.')
          { initSt [] with i := j, output := List.replicate j (Char.ofNat 0) }
          = .halt { initSt [] with i := j, output := List.replicate j (Char.ofNat 0) } := by
        simp [step]
      rw [hstep]
  | succ m ih =>
      intro j
      rw [interpRun]
      have hstep := step_dot (List.replicate (j + (m + 1)) '.')
        { initSt [] with i := j, output := List.replicate j (Char.ofNat 0) }
        rfl (by simp) (by simp [List.getD_eq_getElem?_getD,
          List.getElem?_replicate, show j < j + (m + 1) from by omega])
        (by simp [initSt])
      rw [hstep]
      have houtput : List.replicate j (Char.ofNat 0)
          ++ [Char.ofNat ((List.replicate 100 0).getD 0 0)]
            = List.replicate (j + 1) (Char.ofNat 0) := by
        simp [List.replicate_succ', List.getD_eq_getElem?_getD,
          List.getElem?_replicate]
      have harith : j + (m + 1) = (j + 1) + m := by omega
      simp only [initSt] at houtput ⊢
      rw [houtput, harith]
      exact ih (j + 1)

/-- C9: the code generator's fragments for `PutChar` and `ReadChar` are
the same fixed strings for every run-length argument (the argument is
bound but never used in those arms).  Hence a run of `k` consecutive `.`
operators, folded by the parser into the single instruction
`(PutChar, k)`, compiles to exactly the text of a single `.` — while the
interpreter executes the run character by character and emits `k` output
characters. -/
theorem c9_io_fragments_ignore_run_length :
    (∀ n m stk, Inst.to_bytecode ⟨Token.PutChar, n⟩ stk
        = Inst.to_bytecode ⟨Token.PutChar, m⟩ stk
      ∧ Inst.to_bytecode ⟨Token.ReadChar, n⟩ stk
        = Inst.to_bytecode ⟨Token.ReadChar, m⟩ stk
      ∧ Inst.to_bytecode ⟨Token.PutChar, n⟩ stk = some (bytecode.out, stk)
      ∧ Inst.to_bytecode ⟨Token.ReadChar, n⟩ stk = some (bytecode.input, stk))
    ∧ (∀ k, 0 < k →
        parse_program (List.replicate k Token.PutChar)
          = some [⟨Token.PutChar, k⟩]
        ∧ produce_code [⟨Token.PutChar, k⟩] = produce_code [⟨Token.PutChar, 1⟩])
    ∧ (∀ k, interpRun (List.replicate k '.') (k + 1) (initSt [])
        = Res.done { initSt [] with
                     i := k, output := List.replicate k (Char.ofNat 0) }) := by
  refine ⟨fun n m stk => ⟨rfl, rfl, rfl, rfl⟩,
    fun k hk => ⟨parse_replicate_putchar k hk, rfl⟩, fun k => ?_⟩
  simpa using dots_run k 0

/-- Witness for C9 at a run of three `.` operators. -/
theorem c9_io_fragments_ignore_run_length_witness :
    parse_program (List.replicate 3 Token.PutChar) = some [⟨Token.PutChar, 3⟩]
    ∧ produce_code [⟨Token.PutChar, 3⟩] = produce_code [⟨Token.PutChar, 1⟩]
    ∧ interpRun (List.replicate 3 '.') 4 (initSt [])
        = Res.done { initSt [] with
                     i := 3, output := List.replicate 3 (Char.ofNat 0) } :=
  ⟨(c9_io_fragments_ignore_run_length.2.1 3 (by norm_num)).1,
    (c9_io_fragments_ignore_run_length.2.1 3 (by norm_num)).2,
    c9_io_fragments_ignore_run_length.2.2 3⟩

theorem run_spin_of_fix (prog : List Char) (st : InterpSt)
    (h : step prog st = .next st) :
    ∀ fuel, interpRun prog fuel st = .spin := by
  intro fuel
  induction fuel with
  | zero => rfl
  | succ n ih => rw [interpRun, h]; exact ih

theorem incCell_iterate (n : Nat) :
    ∀ v, v < 256 → incCell^[n] v = (v + n) % 256 := by
  induction n with
  | zero => intro v hv; simp [Nat.mod_eq_of_lt hv]
  | succ n ih =>
      intro v hv
      rw [Function.iterate_succ_apply,
        ih (incCell v) (Nat.mod_lt _ (by norm_num))]
      unfold incCell
      rw [Nat.mod_add_mod]
      omega

set_option maxRecDepth 20000

/-- C7: the interpreter's cell arithmetic is 8-bit wrapping.  Applying 256
increments to any cell value below 256 returns it unchanged (so `+` at 255
wraps to 0), a single increment at 255 gives 0, a single decrement at 0
gives 255, and running the interpreter on 256 consecutive `+` characters
terminates with the whole tape (in particular the current cell) back at
zero — the final state differs from the initial one only in the scan
index. -/
theorem c7_wrapping_increments :
    (∀ v, v < 256 → incCell^[256] v = v)
    ∧ incCell 255 = 0 ∧ decCell 0 = 255
    ∧ interpRun (List.replicate 256 '+') 257 (initSt [])
        = Res.done { initSt [] with i := 256 } := by
  refine ⟨fun v hv => ?_, by decide, by decide, by rfl⟩
  rw [incCell_iterate 256 v hv, Nat.add_mod_right, Nat.mod_eq_of_lt hv]

/-- Witness for C7 at concrete cell values. -/
theorem c7_wrapping_increments_witness : incCell^[256] 7 = 7 :=
  c7_wrapping_increments.1 7 (by norm_num)

/-- C2: refutation at the failing input `"[+]"`.  In skip-loop-body mode
the code never advances the scan position (the `continue` bypasses the
`i += 1` at the bottom of the loop), so once the `[` at a zero cell puts
the scanner into skip mode it re-reads the `+` at position 1 forever: the
interpretation of `"[+]"` on a fresh zero tape never terminates, for any
step budget.  (The claim's own example `"[]"` does terminate with empty
output, but only because the closing `]` is the very next character.) -/
theorem c2_skip_mode_never_advances :
    (∀ fuel, interpRun ['[', '+', ']'] fuel (initSt []) = Res.spin)
    ∧ interpRun ['[', ']'] 10 (initSt [])
        = Res.done { initSt [] with i := 2 } := by
  refine ⟨fun fuel => ?_, by rfl⟩
  have h0 : step ['[', '+', ']'] (initSt [])
      = .next { initSt [] with is_looping := true, i := 1 } := by rfl
  have h1 : step ['[', '+', ']'] { initSt [] with is_looping := true, i := 1 }
      = .next { initSt [] with is_looping := true, i := 1 } := by rfl
  cases fuel with
  | zero => rfl
  | succ n => rw [interpRun, h0]; exact run_spin_of_fix _ _ h1 n

/-- Witness for C2 at the concrete step budget 50. -/
theorem c2_skip_mode_never_advances_witness :
    interpRun ['[', '+', ']'] 50 (initSt []) = Res.spin :=
  c2_skip_mode_never_advances.1 50

/-- C10: executing `]` in normal mode with the current cell zero pops
nothing from an empty re-entry stack (`Vec::pop` on empty is a no-op),
raises no error and continues with the next character, while `]` with a
non-zero cell and an empty re-entry stack faults
(`stack.last().unwrap()`); consequently interpreting the source `"]"` on a
fresh zero tape terminates normally with empty output. -/
theorem c10_close_bracket_empty_stack :
    (∀ prog st, st.is_looping = false → st.i < prog.length →
      prog.getD st.i ' ' = ']' → st.ptr < st.tape.length → st.stack = [] →
      (st.tape.getD st.ptr 0 = 0 →
        step prog st = .next { st with stack := ([] : List Nat), i := st.i + 1 })
      ∧ (st.tape.getD st.ptr 0 ≠ 0 → step prog st = .fault))
    ∧ interpRun [']'] 2 (initSt []) = Res.done { initSt [] with i := 1 } := by
  refine ⟨fun prog st h1 h2 h3 h4 h5 => ⟨fun h6 => ?_, fun h6 => ?_⟩, by rfl⟩
  · have hc : prog[st.i] = ']' := by
      simpa [List.getElem?_eq_getElem h2] using h3
    have ht : st.tape[st.ptr] = 0 := by
      simpa [List.getElem?_eq_getElem h4] using h6
    simp [step, h1, h2, h4, h5, hc, ht]
  · have hc : prog[st.i] = ']' := by
      simpa [List.getElem?_eq_getElem h2] using h3
    have ht : ¬ st.tape[st.ptr] = 0 := by
      simpa [List.getElem?_eq_getElem h4] using h6
    simp [step, h1, h2, h4, h5, hc, ht]

/-- Witness for C10: the general step facts instantiated at `"]"` with a
zero cell and empty stack, and at a one-cell tape holding 5. -/
theorem c10_close_bracket_empty_stack_witness :
    step [']'] (initSt []) = .next { initSt [] with stack := ([] : List Nat), i := 1 }
    ∧ step [']'] { initSt [] with tape := [5] } = .fault :=
  ⟨(c10_close_bracket_empty_stack.1 [']'] (initSt []) rfl (by decide) rfl
      (by decide) rfl).1 rfl,
    (c10_close_bracket_empty_stack.1 [']'] { initSt [] with tape := [5] } rfl
      (by decide) rfl (by decide) rfl).2 (by decide)⟩

/-- C1: evaluation at the failing input `"[][]"`.  The parse of two
sibling loops succeeds, but code generation derives each new label from
the top of the label stack (or 0 when it is empty), so after the first
loop's number is popped the second sibling loop is allocated the same
number 1 again: the emitted fragment stream defines `loop1Start` /
`loop1End` twice instead of containing two distinct label pairs. -/
theorem c1_sibling_loops_reuse_label :
    parse_program (lex_program "[][]")
      = some [⟨Token.JumpIfZero, 1⟩, ⟨Token.JumpIfNonZero, 0⟩,
          ⟨Token.JumpIfZero, 3⟩, ⟨Token.JumpIfNonZero, 2⟩]
    ∧ produce_code_frags
        [⟨Token.JumpIfZero, 1⟩, ⟨Token.JumpIfNonZero, 0⟩,
          ⟨Token.JumpIfZero, 3⟩, ⟨Token.JumpIfNonZero, 2⟩] []
      = some ["loop1Start:\naload_2\niload_1\niaload\nifeq loop1End",
          "goto loop1Start\nloop1End:",
          "loop1Start:\naload_2\niload_1\niaload\nifeq loop1End",
          "goto loop1Start\nloop1End:"] := by
  refine ⟨?_, rfl⟩
  simp [parse_program, parse_program_aux, compile_foldable, lex_program]

/-- C3: counterexample.  The source `"[-]"` does not parse to the claimed
list whose loop-open carries argument 1: the loop-open's argument is
patched to the index of the matching loop-close, which is 2. -/
theorem c3_counterexample :
    parse_program (lex_program "[-]")
      ≠ some [⟨Token.JumpIfZero, 1⟩, ⟨Token.Minus, 1⟩,
          ⟨Token.JumpIfNonZero, 0⟩] := by
  simp [parse_program, parse_program_aux, compile_foldable, lex_program]

/-- C3 amended: the source `"[-]"` parses to exactly
`[(JumpIfZero, 2), (Minus, 1), (JumpIfNonZero, 0)]` — the instructions at
indices 0 and 2 cross-reference each other (the loop-open's argument is
the close's index 2, the loop-close's argument is the open's index 0). -/
theorem c3_parse_of_clear_loop :
    parse_program (lex_program "[-]")
      = some [⟨Token.JumpIfZero, 2⟩, ⟨Token.Minus, 1⟩,
          ⟨Token.JumpIfNonZero, 0⟩] := by
  simp [parse_program, parse_program_aux, compile_foldable, lex_program]

/-- C8: counterexample.  Executing `,` when the console read succeeds with
an empty line (end of input) does not leave the cell unchanged and
continue: the code unwraps the missing first character and faults. -/
theorem c8_counterexample :
    interpRun [','] 2 (initSt [some ""]) = Res.fault :=
  rfl

/-- C8 amended: executing `,` when the console read fails leaves the
current cell (indeed the whole tape) unchanged and execution continues
with the next character; when the read succeeds with a non-empty line the
cell is overwritten with the first character's code; but when the read
succeeds with an empty line the interpreter faults on the missing first
character. -/
theorem c8_read_char_behaviour :
    ∀ prog st rest, st.is_looping = false → st.i < prog.length →
      prog.getD st.i ' ' = ',' →
      (st.input = none :: rest →
        step prog st = .next { st with input := rest, i := st.i + 1 })
      ∧ (st.input = some "" :: rest → step prog st = .fault)
      ∧ (∀ line ch chs, st.input = some line :: rest → line.data = ch :: chs →
          st.ptr < st.tape.length →
          step prog st = .next { st with
            tape := st.tape.set st.ptr (ch.toNat % 256),
            input := rest, i := st.i + 1 }) := by
  intro prog st rest h1 h2 h3
  have hc : prog[st.i] = ',' := by
    simpa [List.getElem?_eq_getElem h2] using h3
  refine ⟨fun h4 => ?_, fun h4 => ?_, fun line ch chs h4 h5 h6 => ?_⟩
  · simp [step, h1, h2, hc, h4]
  · simp [step, h1, h2, hc, h4]
  · simp [step, h1, h2, h6, hc, h4, h5]

/-- Witness for C8's amended statement: the three cases at concrete
states — an `Err` read, an empty-line read, and a read of `"a"`. -/
theorem c8_read_char_behaviour_witness :
    step [','] (initSt [none]) = .next { initSt [none] with input := ([] : List (Option String)), i := 1 }
    ∧ step [','] (initSt [some ""]) = .fault
    ∧ step [','] (initSt [some "a"]) = .next { initSt [some "a"] with
        tape := (List.replicate 100 0).set 0 97,
        input := ([] : List (Option String)), i := 1 } :=
  ⟨(c8_read_char_behaviour [','] (initSt [none]) [] rfl (by decide) rfl).1 rfl,
    (c8_read_char_behaviour [','] (initSt [some ""]) [] rfl (by decide) rfl).2.1 rfl,
    (c8_read_char_behaviour [','] (initSt [some "a"]) [] rfl (by decide) rfl).2.2
      "a" 'a' [] rfl rfl (by decide)⟩

end BF
